import Mathlib

/-!
Verification of the grid-to-solid meshing pipeline of `scripts/create_mesh.py`
(map_to_sdf).

The pipeline converts a binary occupancy grid into an extruded 3-D wall mesh:

  quad mesh builder  →  unreferenced-vertex removal  →  coplanar face merge
    →  scale / translate / rotate  →  extrusion.

The quad mesh builder (`create_wall`, the explicit Python loop) and the
binarization (`make_binary_grid`) are translated directly from the source.
The geometric stages that the source delegates to interactive-application
operators (`delete_loose`, `dissolve_limited`, the transform operators and
`extrude_region_move`) have no source in this repository; they are modelled
from the specification, as marked in their doc comments.

Coordinates are embedded as elements of a field `K` (instantiated at `ℚ` for
executable witnesses and at `ℝ` for the rotation stage); machine floats are
idealized as exact arithmetic.
-/

namespace MapToSdf

/-- A mesh value: a list of 3-D vertices and a list of faces, each face an
ordered list of vertex indices. -/
structure Mesh (K : Type) where
  verts : List (K × K × K)
  faces : List (List Nat)
deriving DecidableEq

/-- Embedding of `make_binary_grid` applied to a single pixel value `p`
(numpy applies it elementwise).  Pixels are `uint8` values in `[0, 255]`;
`255 - grid` is `uint8` subtraction, which agrees with natural subtraction
for `p ≤ 255`.  The float threshold and division are idealized over `ℚ`. -/
def make_binary_grid (p : Nat) (threshold : ℚ) (negate : Bool) : Bool :=
  let q : Nat := if negate then p else 255 - p
  decide ((q : ℚ) / 255 > threshold)

/-- Embedding of the vertex loop of `create_wall`: for `y` in `range (h+1)`,
for `x` in `range (w+1)`, append `(x, y, 0)`. -/
def create_wall_verts (K : Type) [Field K] (h w : Nat) : List (K × K × K) :=
  (List.range (h + 1)).flatMap (fun (y : Nat) =>
    (List.range (w + 1)).map (fun (x : Nat) => ((x : K), (y : K), 0)))

/-- Embedding of the face loop of `create_wall`: inside the same double loop,
when `y < h`, `x < w` and the cell is occupied, append the face
`[bottom_left, bottom_right, top_right, top_left]` where
`bottom_left = x + (w+1)*y`, `top_left = bottom_left + w + 1`,
`top_right = top_left + 1`, `bottom_right = bottom_left + 1`. -/
def create_wall_faces (h w : Nat) (occ : Nat → Nat → Bool) : List (List Nat) :=
  (List.range (h + 1)).flatMap (fun y =>
    (List.range (w + 1)).filterMap (fun x =>
      if y < h ∧ x < w ∧ occ y x then
        some [x + (w + 1) * y, x + (w + 1) * y + 1,
              x + (w + 1) * y + (w + 1) + 1, x + (w + 1) * y + (w + 1)]
      else none))

/-- The mesh produced by the quad-mesh-builder phase of `create_wall`. -/
def buildMesh (K : Type) [Field K] (h w : Nat) (occ : Nat → Nat → Bool) : Mesh K :=
  { verts := create_wall_verts K h w, faces := create_wall_faces h w occ }

/-- Spec-side description of the quad emitted for occupied cell `(r, c)`:
`[bottom-left, bottom-right, top-right, top-left]` on the `(w+1)`-wide
vertex lattice.  Used to compare the builder output against the spec. -/
def cellQuad (w r c : Nat) : List Nat :=
  [c + (w + 1) * r, c + (w + 1) * r + 1,
   c + (w + 1) * r + (w + 1) + 1, c + (w + 1) * r + (w + 1)]

/-- Number of occupied cells of an `h × w` grid. -/
def occCount (h w : Nat) (occ : Nat → Nat → Bool) : Nat :=
  ((List.range h).map (fun r => ((List.range w).filter (fun c => occ r c)).length)).sum

/-- Modelled from the spec: the standard 2-D rotation matrix applied to
`(x, y)` about the global coordinate origin, `z` unchanged.  `cs` and `sn`
stand for the cosine and sine of the rotation angle.  This models the
`transform.rotate` operator with the pivot at the (default) 3-D cursor
position, i.e. the global origin. -/
def applyRot {K : Type} [Field K] (cs sn : K) (p : K × K × K) : K × K × K :=
  (cs * p.1 - sn * p.2.1, sn * p.1 + cs * p.2.1, p.2.2)

/-- Modelled from the spec: the transform stage of `create_wall`.
The source applies, in order, `transform.resize (thickness, thickness, 1)`,
then `transform.translate (origin_x, origin_y, 0)` guarded by
`if origin_x or origin_y:`, then `transform.rotate origin_theta` about the
global origin guarded by `if origin_theta:`.  The operators themselves are
external; their standard meanings (componentwise scale about the origin,
vector translation, rotation about the origin) are taken from the spec. -/
def transformVert {K : Type} [Field K] [DecidableEq K]
    (cell ox oy θ cs sn : K) (p : K × K × K) : K × K × K :=
  let q : K × K × K := (cell * p.1, cell * p.2.1, p.2.2)
  let q2 : K × K × K := if ox = 0 ∧ oy = 0 then q else (q.1 + ox, q.2.1 + oy, q.2.2)
  if θ = 0 then q2 else applyRot cs sn q2

/-- The transform stage applied to every vertex of a mesh; faces untouched. -/
def transformMesh {K : Type} [Field K] [DecidableEq K]
    (cell ox oy θ cs sn : K) (m : Mesh K) : Mesh K :=
  { verts := m.verts.map (transformVert cell ox oy θ cs sn), faces := m.faces }

/-- A small demonstration grid: cell `(r, c)` is occupied when `r + c` is
even. -/
def demoOcc : Nat → Nat → Bool :=
  fun r c => (r + c) % 2 == 0

/-! ### Mesh cleaner, part 1: unreferenced-vertex removal -/

/-- Vertex index `i` is referenced by some face. -/
def refd (faces : List (List Nat)) (i : Nat) : Bool :=
  faces.any (fun f => f.contains i)

/-- New index of vertex `i` after unreferenced-vertex removal: the number of
referenced vertices below `i`. -/
def newIdx (faces : List (List Nat)) (i : Nat) : Nat :=
  ((List.range i).filter (refd faces)).length

/-- Modelled from the spec: the `mesh.delete_loose` operator, whose source is
not in this repository.  Per the spec it deletes every vertex not referenced
by any face and renumbers the remaining face indices accordingly. -/
def delete_loose {K : Type} [Field K] (m : Mesh K) : Mesh K :=
  { verts := ((List.range m.verts.length).filter (refd m.faces)).map
      (fun i => m.verts.getD i (0, 0, 0)),
    faces := m.faces.map (List.map (newIdx m.faces)) }

/-! ### Directed edge lists of polygonal faces -/

/-- Directed edges of a walk along the list, closed back to `a` at the end. -/
def pathEdges : List Nat → Nat → List (Nat × Nat)
  | [], _ => []
  | [x], a => [(x, a)]
  | x :: y :: rest, a => (x, y) :: pathEdges (y :: rest) a

/-- Directed boundary edges of a polygonal face, cyclically. -/
def cycEdges : List Nat → List (Nat × Nat)
  | [] => []
  | a :: rest => pathEdges (a :: rest) a

/-- All directed edges of a face list. -/
def meshEdges (fs : List (List Nat)) : List (Nat × Nat) :=
  fs.flatMap cycEdges

/-! ### Mesh cleaner, part 2: coplanar face merge (limited dissolve) -/

/-- Modelled from the spec: one splice attempt for the coplanar face merge.
After rotating `f` by `r1` and `g` by `r2`, `f` must read `v … u` and `g`
must read `u … v`, i.e. they share the edge `(u,v)`/`(v,u)`; the merged
polygon is their boundary union minus the shared edge.  Per the spec the
merge fires only when the faces share exactly one undirected edge and the
merged boundary stays simple (proxied by distinctness of its vertices; the
faces of the planar stage are all coplanar, so no coplanarity test is
needed). -/
def spliceAt (f g : List Nat) (r1 r2 : Nat) : Option (List Nat) :=
  let f2 := f.rotate r1
  let g2 := g.rotate r2
  if 2 ≤ f2.length ∧ 2 ≤ g2.length ∧ f2.head? = g2.getLast? ∧
      f2.getLast? = g2.head? ∧ f2.head? ≠ f2.getLast? ∧
      (cycEdges f).countP (fun e => (cycEdges g).contains (e.2, e.1)) = 1 ∧
      (f2.dropLast ++ g2.dropLast).Nodup
  then some (f2.dropLast ++ g2.dropLast)
  else none

/-- Modelled from the spec: try to merge two faces along some shared edge. -/
def tryMergePair (f g : List Nat) : Option (List Nat) :=
  (List.range f.length).findSome? (fun r1 =>
    (List.range g.length).findSome? (fun r2 => spliceAt f g r1 r2))

/-- Modelled from the spec: find the first face of the list mergeable with
`f`; return the merged polygon and the remaining faces. -/
def findPartner (f : List Nat) : List (List Nat) → Option (List Nat × List (List Nat))
  | [] => none
  | g :: gs =>
    match tryMergePair f g with
    | some m => some (m, gs)
    | none =>
      match findPartner f gs with
      | some (m, rest) => some (m, g :: rest)
      | none => none

/-- Modelled from the spec: one merge step on the face list; `none` when no
pair of faces can be merged. -/
def mergeStep : List (List Nat) → Option (List (List Nat))
  | [] => none
  | f :: fs =>
    match findPartner f fs with
    | some (m, rest) => some (m :: rest)
    | none => (mergeStep fs).map (fun fs2 => f :: fs2)

/-- Modelled from the spec: repeat `mergeStep` until no merge is possible,
with explicit fuel (the face count bounds the number of merges). -/
def dissolve_go : Nat → List (List Nat) → List (List Nat)
  | 0, fs => fs
  | fuel + 1, fs =>
    match mergeStep fs with
    | some fs2 => dissolve_go fuel fs2
    | none => fs

/-- Modelled from the spec: the `dissolve_limited` operator (coplanar face
merge), whose source is not in this repository. -/
def dissolve_limited (fs : List (List Nat)) : List (List Nat) :=
  dissolve_go fs.length fs

/-- The merge stage at mesh level: vertices are untouched. -/
def dissolveMesh {K : Type} (m : Mesh K) : Mesh K :=
  { verts := m.verts, faces := dissolve_limited m.faces }

/-! ### Merge invariants: boundary chain, shoelace area, face count -/

/-- The algebraic boundary of the edge multiset: the signed multiplicity of
a directed edge minus that of its reverse.  This is the formal silhouette of
the mesh in the plane. -/
def bdChain (fs : List (List Nat)) (e : Nat × Nat) : ℤ :=
  ((meshEdges fs).count e : ℤ) - ((meshEdges fs).count (e.2, e.1) : ℤ)

/-- Shoelace cross term of a directed edge, read off the vertex list. -/
def crossTerm {K : Type} [Field K] (verts : List (K × K × K)) (e : Nat × Nat) : K :=
  (verts.getD e.1 (0, 0, 0)).1 * (verts.getD e.2 (0, 0, 0)).2.1 -
    (verts.getD e.1 (0, 0, 0)).2.1 * (verts.getD e.2 (0, 0, 0)).1

/-- Twice the signed area of the mesh in the plane, by the shoelace formula
summed over all face boundary edges. -/
def doubleArea {K : Type} [Field K] (verts : List (K × K × K))
    (fs : List (List Nat)) : K :=
  ((meshEdges fs).map (crossTerm verts)).sum

/-- Directed edges with no reverse occurrence: with consistent winding these
are the silhouette boundary of the planar mesh. -/
def boundaryEdges (fs : List (List Nat)) : List (Nat × Nat) :=
  (meshEdges fs).filter (fun e => (meshEdges fs).count (e.2, e.1) = 0)

/-- Number of boundary edges incident to vertex `x`. -/
def bdDeg (fs : List (List Nat)) (x : Nat) : Nat :=
  (boundaryEdges fs).countP (fun e => e.1 = x) +
    (boundaryEdges fs).countP (fun e => e.2 = x)

/-- Number of faces of the list that use the undirected edge `e`, counting
face-boundary incidences in either orientation. -/
def udCount (E : List (Nat × Nat)) (e : Nat × Nat) : Nat :=
  E.count e + E.count (e.2, e.1)

/-- Outward side quad over a boundary edge, connecting the bottom copy of
the edge to its top copy (`n` is the planar vertex count). -/
def sideQuad (n : Nat) (e : Nat × Nat) : List Nat :=
  [e.1, e.2, e.2 + n, e.1 + n]

/-- Modelled from the spec: the `extrude_region_move` operator, whose source
is not in this repository.  Per the spec, the solid consists of the bottom
cap (original faces, winding reversed), the top cap (original faces
translated by `(0,0,H)`, winding preserved, on the duplicated vertices), and
one outward side quad per boundary edge. -/
def extrude_region {K : Type} [Field K] (H : K) (m : Mesh K) : Mesh K :=
  let n := m.verts.length
  { verts := m.verts ++ m.verts.map (fun v => (v.1, v.2.1, v.2.2 + H)),
    faces := m.faces.map List.reverse ++
      m.faces.map (List.map (fun i => i + n)) ++
      (boundaryEdges m.faces).map (sideQuad n) }

/-- Two unit quads touching only at a corner: produced by the builder for a
2 by 2 grid with the two diagonal cells occupied, all vertices at `z = 0`. -/
def cornerMesh : Mesh ℚ :=
  { verts := [(0, 0, 0), (1, 0, 0), (2, 0, 0),
              (0, 1, 0), (1, 1, 0), (2, 1, 0),
              (0, 2, 0), (1, 2, 0), (2, 2, 0)],
    faces := [[0, 1, 4, 3], [4, 5, 8, 7]] }

/-- A single unit quad mesh, used as the manifold-extrusion witness. -/
def sqMesh : Mesh ℚ :=
  { verts := [(0, 0, 0), (1, 0, 0), (0, 1, 0), (1, 1, 0)],
    faces := [[0, 1, 3, 2]] }

/-! ### The full pipeline -/

/-- Embedding of `create_wall` (the full pipeline): build the quad mesh from
the grid, remove loose geometry, merge coplanar faces, apply the placement
transform (scale `thickness`, translate `(ox, oy)`, rotate about the global
origin with cosine `cs` and sine `sn` of `θ`), and extrude by `H`. -/
def create_wall (K : Type) [Field K] [DecidableEq K] (h w : Nat)
    (occ : Nat → Nat → Bool) (thickness ox oy θ cs sn H : K) : Mesh K :=
  extrude_region H (transformMesh thickness ox oy θ cs sn
    (dissolveMesh (delete_loose (buildMesh K h w occ))))

/-! ### Generic list helpers -/

/-- filterMap with a guarded some is a filter followed by a map. -/
theorem filterMap_ite {α β : Type} (pr : α → Prop) [DecidablePred pr] (f : α → β) :
    ∀ l : List α,
      (l.filterMap fun x => if pr x then some (f x) else none) =
        (l.filter fun x => decide (pr x)).map f := by
  intro l
  induction l with
  | nil => rfl
  | cons a t ih => by_cases h : pr a <;> simp [h, ih]

/-- filterMap congruence on members. -/
theorem filterMap_congr_mem {α β : Type} {f g : α → Option β} :
    ∀ {l : List α}, (∀ a ∈ l, f a = g a) → l.filterMap f = l.filterMap g := by
  intro l
  induction l with
  | nil => intro _; rfl
  | cons a t ih =>
    intro hfg
    rw [List.filterMap_cons, List.filterMap_cons, hfg a (by simp),
      ih (fun b hb => hfg b (by simp [hb]))]

/-- flatMap congruence on members. -/
theorem flatMap_congr_mem {α β : Type} {f g : α → List β} :
    ∀ {l : List α}, (∀ a ∈ l, f a = g a) → l.flatMap f = l.flatMap g := by
  intro l
  induction l with
  | nil => intro _; rfl
  | cons a t ih =>
    intro hfg
    rw [List.flatMap_cons, List.flatMap_cons, hfg a (by simp),
      ih (fun b hb => hfg b (by simp [hb]))]

/-- Indexing a flatMap of uniform-length blocks over a range. -/
theorem flatMap_uniform_getElem {β : Type} (L : Nat) :
    ∀ (n : Nat) (g : Nat → List β), (∀ y, (g y).length = L) →
      ∀ y x, y < n → x < L → ((List.range n).flatMap g)[x + L * y]? = (g y)[x]? := by
  intro n
  induction n with
  | zero =>
    intro g _ y x hy _
    exact absurd hy (Nat.not_lt_zero y)
  | succ n ih =>
    intro g hg y x hy hx
    rw [List.range_succ_eq_map, List.flatMap_cons, List.flatMap_map]
    cases y with
    | zero =>
      rw [Nat.mul_zero, Nat.add_zero]
      rw [List.getElem?_append_left (by rw [hg 0]; exact hx)]
    | succ y' =>
      rw [List.getElem?_append_right (by rw [hg 0]; nlinarith)]
      have hidx : x + L * (y' + 1) - (g 0).length = x + L * y' := by
        rw [hg 0]; ring_nf; omega
      rw [hidx]
      exact ih (fun z => g (z + 1)) (fun z => hg (z + 1)) y' x (by omega) hx

/-! ### Builder normal form -/

/-- The face loop of `create_wall` in filter/map normal form: one `cellQuad`
per occupied cell, in row-major order. -/
theorem create_wall_faces_eq (h w : Nat) (occ : Nat → Nat → Bool) :
    create_wall_faces h w occ =
      (List.range h).flatMap (fun r =>
        ((List.range w).filter (fun c => occ r c)).map (cellQuad w r)) := by
  unfold create_wall_faces
  rw [show h + 1 = h + 1 by rfl]
  rw [List.range_succ, List.flatMap_append]
  have hlast : (List.range (w + 1)).filterMap (fun x =>
      if h < h ∧ x < w ∧ occ h x then
        some [x + (w + 1) * h, x + (w + 1) * h + 1,
              x + (w + 1) * h + (w + 1) + 1, x + (w + 1) * h + (w + 1)]
      else none) = [] := by
    apply List.filterMap_eq_nil_iff.mpr
    intro x _
    simp
  rw [List.flatMap_cons, List.flatMap_nil, hlast, List.append_nil, List.append_nil]
  apply flatMap_congr_mem
  intro y hy
  have hyh : y < h := List.mem_range.mp hy
  rw [List.range_succ, List.filterMap_append]
  have hlastcol : [w].filterMap (fun x =>
      if y < h ∧ x < w ∧ occ y x then
        some [x + (w + 1) * y, x + (w + 1) * y + 1,
              x + (w + 1) * y + (w + 1) + 1, x + (w + 1) * y + (w + 1)]
      else none) = [] := by
    simp
  rw [hlastcol, List.append_nil]
  rw [filterMap_congr_mem (g := fun x =>
      if occ y x = true then some (cellQuad w y x) else none)
    (fun x hx => by
      have hxw : x < w := List.mem_range.mp hx
      by_cases hocc : occ y x = true <;> simp [hyh, hxw, hocc, cellQuad])]
  rw [filterMap_ite (fun x => occ y x = true) (cellQuad w y)]
  congr 1
  apply List.filter_congr
  intro x _
  simp

/-- Count of an element in a flatMap, blockwise. -/
theorem count_flatMap {α β : Type} [BEq β] (g : α → List β) (b : β) :
    ∀ l : List α, (l.flatMap g).count b = (l.map fun a => (g a).count b).sum := by
  intro l
  induction l with
  | nil => rfl
  | cons a t ih => simp [List.flatMap_cons, ih]

/-- Count of an image under an injective map. -/
theorem count_map_inj {α β : Type} [BEq α] [LawfulBEq α] [BEq β] [LawfulBEq β] (f : α → β)
    (hf : ∀ a b, f a = f b → a = b) (x : α) :
    ∀ l : List α, (l.map f).count (f x) = l.count x := by
  intro l
  induction l with
  | nil => rfl
  | cons a t ih =>
    by_cases hax : a = x
    · subst hax
      simp [List.count_cons, ih]
    · have hne : ¬(f a = f x) := fun hfa => hax (hf a x hfa)
      simp [List.count_cons, ih, hax, hne]

/-- Count of a value in a range. -/
theorem count_range_nat (c : Nat) : ∀ w : Nat,
    (List.range w).count c = if c < w then 1 else 0 := by
  intro w
  induction w with
  | zero => simp
  | succ w ih =>
    rw [List.range_succ, List.count_append, ih]
    have hsing : List.count c [w] = if w = c then 1 else 0 := by
      simp [List.count_cons]
    rw [hsing]
    rcases Nat.lt_trichotomy c w with hlt | heq | hgt
    · rw [if_pos hlt, if_neg (by omega), if_pos (by omega)]
    · subst heq
      rw [if_neg (by omega), if_pos rfl, if_pos (by omega)]
    · rw [if_neg (by omega), if_neg (by omega), if_neg (by omega)]

/-- Sum over a range of a function supported on one point. -/
theorem sum_range_single (g : Nat → Nat) (r : Nat) :
    ∀ n : Nat, r < n → (∀ r', r' ≠ r → g r' = 0) →
      ((List.range n).map g).sum = g r := by
  intro n
  induction n with
  | zero => intro hr; exact absurd hr (Nat.not_lt_zero r)
  | succ n ih =>
    intro hr hz
    rw [List.range_succ, List.map_append, List.sum_append]
    by_cases hrn : r = n
    · subst hrn
      have : ((List.range r).map g).sum = 0 :=
        List.sum_eq_zero (by
          intro x hx
          obtain ⟨r', hr', rfl⟩ := List.mem_map.mp hx
          exact hz r' (by have := List.mem_range.mp hr'; omega))
      simp [this]
    · rw [ih (by omega) hz]
      simp [hz n (by omega)]

/-- Sum of a constant map. -/
theorem sum_map_const_nat {α : Type} {b : Nat} : ∀ l : List α,
    (l.map (fun _ => b)).sum = l.length * b := by
  intro l
  induction l with
  | nil => simp
  | cons a t ih =>
    simp [ih]
    ring

/-- The quad of a cell determines the cell (indices are below `w+1`). -/
theorem cellQuad_inj {w r c r' c' : Nat} (hc : c < w + 1) (hc' : c' < w + 1)
    (heq : cellQuad w r c = cellQuad w r' c') : r = r' ∧ c = c' := by
  have hhead : c + (w + 1) * r = c' + (w + 1) * r' := by
    simpa [cellQuad] using congrArg (fun l => l.headD 0) heq
  have hm : (c + (w + 1) * r) % (w + 1) = c := by
    rw [Nat.add_mul_mod_self_left, Nat.mod_eq_of_lt hc]
  have hm' : (c' + (w + 1) * r') % (w + 1) = c' := by
    rw [Nat.add_mul_mod_self_left, Nat.mod_eq_of_lt hc']
  have hd : (c + (w + 1) * r) / (w + 1) = r := by
    rw [Nat.add_mul_div_left _ _ (Nat.succ_pos w), Nat.div_eq_of_lt hc]
    omega
  have hd' : (c' + (w + 1) * r') / (w + 1) = r' := by
    rw [Nat.add_mul_div_left _ _ (Nat.succ_pos w), Nat.div_eq_of_lt hc']
    omega
  constructor
  · rw [← hd, ← hd', hhead]
  · rw [← hm, ← hm', hhead]

/-- Membership characterization of the builder faces. -/
theorem mem_create_wall_faces {h w : Nat} {occ : Nat → Nat → Bool} {f : List Nat} :
    f ∈ create_wall_faces h w occ ↔
      ∃ r c : Nat, r < h ∧ c < w ∧ occ r c = true ∧ f = cellQuad w r c := by
  rw [create_wall_faces_eq]
  simp only [List.mem_flatMap, List.mem_map, List.mem_filter, List.mem_range]
  constructor
  · rintro ⟨r, hr, c, ⟨hc, hocc⟩, rfl⟩
    exact ⟨r, c, hr, hc, hocc, rfl⟩
  · rintro ⟨r, c, hr, hc, hocc, rfl⟩
    exact ⟨r, hr, c, ⟨hc, hocc⟩, rfl⟩

/-- Per-row count of a cell quad among the faces emitted for row `r'`. -/
theorem count_cellQuad_row {w : Nat} (occ : Nat → Nat → Bool) (r c r' : Nat) (hc : c < w) :
    (((List.range w).filter (fun c2 => occ r' c2)).map (cellQuad w r')).count (cellQuad w r c) =
      if r' = r then (if occ r c = true then 1 else 0) else 0 := by
  by_cases hrr : r' = r
  · subst hrr
    have hinj : ∀ a b : Nat, cellQuad w r' a = cellQuad w r' b → a = b := by
      intro a b hab
      simp [cellQuad] at hab
      omega
    rw [count_map_inj (cellQuad w r') hinj c]
    by_cases hocc : occ r' c = true
    · rw [List.count_filter (by simpa using hocc)]
      rw [count_range_nat c w]
      simp [hocc, hc]
    · simp only [if_pos rfl, hocc, if_false]
      apply List.count_eq_zero.mpr
      intro hmem
      exact hocc (List.mem_filter.mp hmem).2
  · rw [if_neg hrr]
    apply List.count_eq_zero.mpr
    intro hmem
    obtain ⟨c', hc', heq⟩ := List.mem_map.mp hmem
    have hcw' : c' < w := List.mem_range.mp (List.mem_filter.mp hc').1
    exact hrr (cellQuad_inj (by omega) (by omega) heq).1

/-- C1: the Quad Mesh Builder instantiates all `(h+1)*(w+1)` lattice vertices
up front, the vertex at lattice point `(x, y)` sits at index `x + (w+1)*y`,
and it emits exactly one quad `[bottom-left, bottom-right, top-right,
top-left]` per occupied cell and zero faces for free cells (and no other
faces). -/
theorem create_wall_builder_correct (h w : Nat) (occ : Nat → Nat → Bool) :
    (create_wall_verts ℚ h w).length = (h + 1) * (w + 1) ∧
    (∀ x y : Nat, x ≤ w → y ≤ h →
      (create_wall_verts ℚ h w)[x + (w + 1) * y]? = some ((x : ℚ), (y : ℚ), 0)) ∧
    (∀ r c : Nat, r < h → c < w →
      (create_wall_faces h w occ).count (cellQuad w r c) =
        if occ r c = true then 1 else 0) ∧
    (∀ f ∈ create_wall_faces h w occ,
      ∃ r c : Nat, r < h ∧ c < w ∧ occ r c = true ∧ f = cellQuad w r c) ∧
    (create_wall_faces h w occ).length = occCount h w occ := by
  refine ⟨?_, ?_, ?_, ?_, ?_⟩
  · rw [create_wall_verts, List.length_flatMap]
    rw [List.map_congr_left (g := fun _ => w + 1) (by
      intro y _
      simp [Function.comp])]
    rw [sum_map_const_nat, List.length_range]
  · intro x y hx hy
    rw [create_wall_verts,
      flatMap_uniform_getElem (w + 1) (h + 1)
        (fun (y2 : Nat) => (List.range (w + 1)).map (fun (x2 : Nat) => ((x2 : ℚ), (y2 : ℚ), 0)))
        (fun y2 => by rw [List.length_map, List.length_range]) y x (by omega) (by omega)]
    rw [List.getElem?_map, List.getElem?_range (by omega)]
    rfl
  · intro r c hr hc
    rw [create_wall_faces_eq, count_flatMap]
    have hsum := sum_range_single
      (fun r' => (((List.range w).filter (fun c2 => occ r' c2)).map (cellQuad w r')).count
        (cellQuad w r c)) r h hr
      (fun r' hne => (count_cellQuad_row occ r c r' hc).trans (if_neg hne))
    rw [hsum]
    exact (count_cellQuad_row occ r c r hc).trans (if_pos rfl)
  · intro f hf
    exact mem_create_wall_faces.mp hf
  · rw [create_wall_faces_eq, occCount, List.length_flatMap]
    apply congrArg List.sum
    apply List.map_congr_left
    intro r _
    simp [Function.comp]

/-- C8: the builder output satisfies the Mesh invariant: every face index is
a valid vertex index (below `(h+1)*(w+1)`), no face repeats a vertex, and no
two faces are duplicates. -/
theorem create_wall_mesh_invariant (h w : Nat) (occ : Nat → Nat → Bool) :
    (∀ f ∈ create_wall_faces h w occ, ∀ i ∈ f, i < (h + 1) * (w + 1)) ∧
    (∀ f ∈ create_wall_faces h w occ, f.Nodup) ∧
    (create_wall_faces h w occ).Nodup := by
  refine ⟨?_, ?_, ?_⟩
  · intro f hf i hi
    obtain ⟨r, c, hr, hc, _, rfl⟩ := mem_create_wall_faces.mp hf
    have hmul : (w + 1) * (r + 1) ≤ (w + 1) * h := Nat.mul_le_mul_left _ (by omega)
    have hexp : (w + 1) * (r + 1) = (w + 1) * r + (w + 1) := by ring
    have htot : (h + 1) * (w + 1) = (w + 1) * h + (w + 1) := by ring
    simp [cellQuad] at hi
    rcases hi with rfl | rfl | rfl | rfl <;> omega
  · intro f hf
    obtain ⟨r, c, hr, hc, _, rfl⟩ := mem_create_wall_faces.mp hf
    simp [cellQuad]
    omega
  · rw [create_wall_faces_eq, List.flatMap_def]
    apply List.nodup_flatten.mpr
    constructor
    · intro l hl
      obtain ⟨r, _, rfl⟩ := List.mem_map.mp hl
      apply List.Nodup.map_on
      · intro c1 hc1 c2 hc2 heq
        have h1 : c1 < w := List.mem_range.mp (List.mem_filter.mp hc1).1
        have h2 : c2 < w := List.mem_range.mp (List.mem_filter.mp hc2).1
        exact (cellQuad_inj (by omega) (by omega) heq).2
      · exact (List.nodup_range w).filter _
    · apply (List.pairwise_map).mpr
      apply (List.pairwise_lt_range h).imp
      intro r r' hlt f hf hf'
      obtain ⟨c, hc, rfl⟩ := List.mem_map.mp hf
      obtain ⟨c', hc', heq⟩ := List.mem_map.mp hf'
      have h1 : c < w := List.mem_range.mp (List.mem_filter.mp hc).1
      have h2 : c' < w := List.mem_range.mp (List.mem_filter.mp hc').1
      have := (cellQuad_inj (w := w) (by omega) (by omega) heq.symm).1
      omega

/-- Witness for `create_wall_builder_correct` on a 2 by 3 grid: the vertex at
lattice point `(1, 2)` sits at index `1 + (3+1)*2`, and occupied cell
`(0, 0)` contributes exactly one quad. -/
theorem create_wall_builder_correct_witness :
    (1 ≤ 3 ∧ 2 ≤ 2 ∧ 0 < 2 ∧ 0 < 3) ∧
    (create_wall_verts ℚ 2 3)[1 + (3 + 1) * 2]? = some ((1 : ℚ), (2 : ℚ), 0) ∧
    (create_wall_faces 2 3 demoOcc).count (cellQuad 3 0 0) =
      (if demoOcc 0 0 = true then 1 else 0) :=
  ⟨⟨by decide, by decide, by decide, by decide⟩,
   (create_wall_builder_correct 2 3 demoOcc).2.1 1 2 (by decide) (by decide),
   (create_wall_builder_correct 2 3 demoOcc).2.2.1 0 0 (by decide) (by decide)⟩

/-- Witness for `create_wall_mesh_invariant` on a 2 by 3 grid: the quad of
occupied cell `(0, 0)` has valid indices, no repeated vertex, and the whole
face list is duplicate-free. -/
theorem create_wall_mesh_invariant_witness :
    (cellQuad 3 0 0 ∈ create_wall_faces 2 3 demoOcc ∧ 1 ∈ cellQuad 3 0 0) ∧
    1 < (2 + 1) * (3 + 1) ∧
    (cellQuad 3 0 0).Nodup ∧
    (create_wall_faces 2 3 demoOcc).Nodup :=
  ⟨⟨by decide, by decide⟩,
   (create_wall_mesh_invariant 2 3 demoOcc).1 (cellQuad 3 0 0) (by decide) 1 (by decide),
   (create_wall_mesh_invariant 2 3 demoOcc).2.1 (cellQuad 3 0 0) (by decide),
   (create_wall_mesh_invariant 2 3 demoOcc).2.2⟩

/-- Surjectivity of the renumbering onto the initial segment: every position
in the filtered range is the renumbered image of a kept index. -/
theorem filter_range_surj (p : Nat → Bool) :
    ∀ n j : Nat, j < ((List.range n).filter p).length →
      ∃ i, i < n ∧ p i = true ∧ ((List.range i).filter p).length = j := by
  intro n
  induction n with
  | zero =>
    intro j hj
    simp at hj
  | succ n ih =>
    intro j hj
    rw [List.range_succ, List.filter_append, List.length_append] at hj
    by_cases hjn : j < ((List.range n).filter p).length
    · obtain ⟨i, hi, hpi, hlen⟩ := ih j hjn
      exact ⟨i, by omega, hpi, hlen⟩
    · by_cases hpn : p n = true
      · refine ⟨n, by omega, hpn, ?_⟩
        simp [hpn] at hj
        omega
      · simp [hpn] at hj
        omega

/-- Kept indices are renumbered below the number of kept vertices. -/
theorem filter_range_len_mono (p : Nat → Bool) :
    ∀ m n : Nat, m ≤ n →
      ((List.range m).filter p).length ≤ ((List.range n).filter p).length := by
  intro m n
  induction n with
  | zero =>
    intro hmn
    have : m = 0 := by omega
    subst this
    exact Nat.le_refl _
  | succ n ih =>
    intro hmn
    by_cases hm : m ≤ n
    · refine (ih hm).trans ?_
      rw [List.range_succ, List.filter_append, List.length_append]
      omega
    · have : m = n + 1 := by omega
      subst this
      exact Nat.le_refl _

/-- Renumbering a kept index lands inside the new vertex list. -/
theorem newIdx_lt {faces : List (List Nat)} {i n : Nat} (hin : i < n)
    (hp : refd faces i = true) :
    newIdx faces i < ((List.range n).filter (refd faces)).length := by
  have hstep : ((List.range (i + 1)).filter (refd faces)).length =
      newIdx faces i + 1 := by
    rw [List.range_succ, List.filter_append, List.length_append]
    simp [hp, newIdx]
  have := filter_range_len_mono (refd faces) (i + 1) n (by omega)
  omega

/-- Membership characterization of `refd`. -/
theorem refd_iff {faces : List (List Nat)} {i : Nat} :
    refd faces i = true ↔ ∃ f ∈ faces, i ∈ f := by
  simp [refd]

/-- Reading back a list by positions. -/
theorem map_getD_range {α : Type} (d : α) :
    ∀ l : List α, (List.range l.length).map (fun i => l.getD i d) = l := by
  intro l
  induction l with
  | nil => rfl
  | cons a t ih =>
    rw [List.length_cons, List.range_succ_eq_map, List.map_cons, List.map_map]
    have hcomp : ((fun i => (a :: t).getD i d) ∘ Nat.succ) = fun i => t.getD i d := by
      funext i
      rfl
    rw [hcomp, ih]
    rfl

/-- After removal, every index occurring in the faces is a renumbered image
of a kept index. -/
theorem refd_after_delete {faces : List (List Nat)} {j : Nat} :
    refd (faces.map (List.map (newIdx faces))) j = true ↔
      ∃ i, refd faces i = true ∧ newIdx faces i = j := by
  constructor
  · intro hj
    obtain ⟨f', hf', hjf'⟩ := refd_iff.mp hj
    obtain ⟨f, hf, rfl⟩ := List.mem_map.mp hf'
    obtain ⟨i, hif, rfl⟩ := List.mem_map.mp hjf'
    exact ⟨i, refd_iff.mpr ⟨f, hf, hif⟩, rfl⟩
  · rintro ⟨i, hi, rfl⟩
    obtain ⟨f, hf, hif⟩ := refd_iff.mp hi
    exact refd_iff.mpr ⟨f.map (newIdx faces), List.mem_map_of_mem _ hf,
      List.mem_map_of_mem _ hif⟩

/-- Renumbering is the identity on the renumbered face indices. -/
theorem newIdx_after_delete {faces : List (List Nat)} {j : Nat}
    (hj : refd (faces.map (List.map (newIdx faces))) j = true) :
    newIdx (faces.map (List.map (newIdx faces))) j = j := by
  obtain ⟨i0, hp0, rfl⟩ := refd_after_delete.mp hj
  have hall : ∀ k ∈ List.range (newIdx faces i0),
      refd (faces.map (List.map (newIdx faces))) k = true := by
    intro k hk
    have hk2 : k < ((List.range i0).filter (refd faces)).length :=
      List.mem_range.mp hk
    obtain ⟨i, _, hpi, hlen⟩ := filter_range_surj (refd faces) i0 k hk2
    exact refd_after_delete.mpr ⟨i, hpi, hlen⟩
  rw [newIdx, List.filter_eq_self.mpr hall, List.length_range]

/-- C7: unreferenced-vertex removal is idempotent. -/
theorem delete_loose_idempotent {K : Type} [Field K] (m : Mesh K) :
    delete_loose (delete_loose m) = delete_loose m := by
  set F := m.faces with hF
  set F' := F.map (List.map (newIdx F)) with hF'
  have hface : F'.map (List.map (newIdx F')) = F' := by
    conv_rhs => rw [← List.map_id F']
    apply List.map_congr_left
    intro f' hf'
    have : ∀ j ∈ f', newIdx F' j = j := by
      intro j hj
      exact newIdx_after_delete (refd_iff.mpr ⟨f', hf', hj⟩)
    rw [List.map_congr_left this]
    exact List.map_id f'
  have hn' : (delete_loose m).verts.length =
      ((List.range m.verts.length).filter (refd F)).length := by
    rw [delete_loose, List.length_map]
  have hallkept : ∀ j ∈ List.range (delete_loose m).verts.length,
      refd F' j = true := by
    intro j hj
    rw [hn'] at hj
    obtain ⟨i, _, hpi, hlen⟩ :=
      filter_range_surj (refd F) m.verts.length j (List.mem_range.mp hj)
    exact refd_after_delete.mpr ⟨i, hpi, hlen⟩
  show Mesh.mk _ _ = Mesh.mk _ _
  rw [Mesh.mk.injEq]
  constructor
  · show ((List.range (delete_loose m).verts.length).filter
        (refd (delete_loose m).faces)).map
        (fun i => (delete_loose m).verts.getD i (0, 0, 0)) = (delete_loose m).verts
    have hfaces_eq : (delete_loose m).faces = F' := rfl
    rw [hfaces_eq, List.filter_eq_self.mpr hallkept]
    exact map_getD_range _ _
  · exact hface

/-- Splitting a walk at an interior point. -/
theorem pathEdges_append_cons :
    ∀ (l₁ : List Nat) (x : Nat) (l₂ : List Nat) (c : Nat), l₁ ≠ [] →
      pathEdges (l₁ ++ x :: l₂) c = pathEdges l₁ x ++ pathEdges (x :: l₂) c := by
  intro l₁
  induction l₁ with
  | nil =>
    intro x l₂ c hne
    exact absurd rfl hne
  | cons a t ih =>
    intro x l₂ c _
    cases t with
    | nil => rfl
    | cons b t2 =>
      have : ((a :: b :: t2) ++ x :: l₂) = a :: ((b :: t2) ++ x :: l₂) := rfl
      rw [this]
      show (a, b) :: pathEdges ((b :: t2) ++ x :: l₂) c =
        ((a, b) :: pathEdges (b :: t2) x) ++ pathEdges (x :: l₂) c
      rw [ih x l₂ c (by simp)]
      rfl

/-- One cyclic rotation permutes the edge list. -/
theorem cycEdges_rotate_one (f : List Nat) :
    List.Perm (cycEdges (f.rotate 1)) (cycEdges f) := by
  cases f with
  | nil => simp [List.rotate_nil]
  | cons a rest =>
    rw [List.rotate_cons_succ, List.rotate_zero]
    cases rest with
    | nil => exact List.Perm.refl _
    | cons b rs =>
      have h1 : cycEdges ((b :: rs) ++ [a]) =
          pathEdges (b :: rs) a ++ [(a, b)] := by
        have : (b :: rs) ++ [a] = b :: (rs ++ [a]) := rfl
        rw [this]
        show pathEdges (b :: (rs ++ [a])) b = pathEdges (b :: rs) a ++ [(a, b)]
        have h2 : b :: (rs ++ [a]) = (b :: rs) ++ a :: [] := by simp
        rw [h2, pathEdges_append_cons (b :: rs) a [] b (by simp)]
        rfl
      rw [h1]
      have h3 : cycEdges (a :: b :: rs) = (a, b) :: pathEdges (b :: rs) a := rfl
      rw [h3]
      exact List.perm_append_singleton _ _

/-- Any rotation permutes the edge list. -/
theorem cycEdges_rotate_perm :
    ∀ (k : Nat) (f : List Nat), List.Perm (cycEdges (f.rotate k)) (cycEdges f) := by
  intro k
  induction k with
  | zero =>
    intro f
    rw [List.rotate_zero]
  | succ k ih =>
    intro f
    have : f.rotate (k + 1) = (f.rotate 1).rotate k := by
      rw [List.rotate_rotate]
      congr 1
      omega
    rw [this]
    exact (ih (f.rotate 1)).trans (cycEdges_rotate_one f)

/-- A successful splice removes exactly one matched pair of opposite
directed edges from the combined edge multiset. -/
theorem spliceAt_edges {f g m : List Nat} {r1 r2 : Nat}
    (h : spliceAt f g r1 r2 = some m) :
    ∃ u v : Nat,
      List.Perm (cycEdges m ++ [(u, v), (v, u)]) (cycEdges f ++ cycEdges g) := by
  rw [spliceAt] at h
  split at h
  case isFalse => exact absurd h (by simp)
  case isTrue hguard =>
    obtain ⟨hl1, hl2, hhead, hlast, _, _, _⟩ := hguard
    have hm : m = (f.rotate r1).dropLast ++ (g.rotate r2).dropLast :=
      (Option.some.injEq _ _ ▸ h).symm
    set f2 := f.rotate r1 with hf2
    set g2 := g.rotate r2 with hg2
    cases hf2c : f2 with
    | nil => rw [hf2c] at hl1; simp at hl1
    | cons v t1 =>
      cases ht1 : t1 with
      | nil => rw [hf2c, ht1] at hl1; simp at hl1
      | cons b1 t1' =>
        cases hg2c : g2 with
        | nil => rw [hg2c] at hl2; simp at hl2
        | cons u t2 =>
          cases ht2 : t2 with
          | nil => rw [hg2c, ht2] at hl2; simp at hl2
          | cons b2 t2' =>
            refine ⟨u, v, ?_⟩
            have ht1ne : t1 ≠ [] := by rw [ht1]; simp
            have ht2ne : t2 ≠ [] := by rw [ht2]; simp
            have hu : f2.getLast? = some (t1.getLast ht1ne) := by
              rw [hf2c]
              rw [List.getLast?_eq_getLast _ (by simp [ht1])]
              rw [List.getLast_cons ht1ne]
            have hv : g2.getLast? = some (t2.getLast ht2ne) := by
              rw [hg2c]
              rw [List.getLast?_eq_getLast _ (by simp [ht2])]
              rw [List.getLast_cons ht2ne]
            have huval : t1.getLast ht1ne = u := by
              have h1 : f2.getLast? = g2.head? := hlast
              rw [hu, hg2c] at h1
              simpa using h1
            have hvval : t2.getLast ht2ne = v := by
              have h1 : f2.head? = g2.getLast? := hhead
              rw [hv, hf2c] at h1
              simpa using h1.symm
            set A := t1.dropLast with hA
            set B := t2.dropLast with hB
            have ht1d : t1 = A ++ [u] := by
              rw [hA, ← huval]
              exact (List.dropLast_append_getLast ht1ne).symm
            have ht2d : t2 = B ++ [v] := by
              rw [hB, ← hvval]
              exact (List.dropLast_append_getLast ht2ne).symm
            have hf2d : f2 = v :: (A ++ [u]) := by rw [hf2c, ht1d]
            have hg2d : g2 = u :: (B ++ [v]) := by rw [hg2c, ht2d]
            have hmd : m = (v :: A) ++ (u :: B) := by
              rw [hm, hf2d, hg2d]
              rw [show v :: (A ++ [u]) = (v :: A) ++ [u] by simp,
                  show u :: (B ++ [v]) = (u :: B) ++ [v] by simp,
                  List.dropLast_concat, List.dropLast_concat]
            have hcf2 : cycEdges f2 = pathEdges (v :: A) u ++ [(u, v)] := by
              rw [hf2d]
              show pathEdges (v :: (A ++ [u])) v = pathEdges (v :: A) u ++ [(u, v)]
              rw [show v :: (A ++ [u]) = (v :: A) ++ u :: [] by simp,
                pathEdges_append_cons (v :: A) u [] v (by simp)]
              rfl
            have hcg2 : cycEdges g2 = pathEdges (u :: B) v ++ [(v, u)] := by
              rw [hg2d]
              show pathEdges (u :: (B ++ [v])) u = pathEdges (u :: B) v ++ [(v, u)]
              rw [show u :: (B ++ [v]) = (u :: B) ++ v :: [] by simp,
                pathEdges_append_cons (u :: B) v [] u (by simp)]
              rfl
            have hcm : cycEdges m = pathEdges (v :: A) u ++ pathEdges (u :: B) v := by
              rw [hmd]
              show pathEdges ((v :: A) ++ u :: B) v =
                pathEdges (v :: A) u ++ pathEdges (u :: B) v
              rw [pathEdges_append_cons (v :: A) u B v (by simp)]
            have hpf : (↑(cycEdges f2) : Multiset (Nat × Nat)) = ↑(cycEdges f) := by
              rw [Multiset.coe_eq_coe, hf2]
              exact cycEdges_rotate_perm r1 f
            have hpg : (↑(cycEdges g2) : Multiset (Nat × Nat)) = ↑(cycEdges g) := by
              rw [Multiset.coe_eq_coe, hg2]
              exact cycEdges_rotate_perm r2 g
            rw [← Multiset.coe_eq_coe]
            rw [show ((cycEdges f ++ cycEdges g : List (Nat × Nat)) : Multiset (Nat × Nat)) =
                ↑(cycEdges f) + ↑(cycEdges g) from (Multiset.coe_add _ _).symm]
            rw [← hpf, ← hpg, hcf2, hcg2, hcm]
            rw [show ([(u, v), (v, u)] : List (Nat × Nat)) = [(u, v)] ++ [(v, u)] from rfl]
            simp only [← Multiset.coe_add]
            abel

/-- Count respects permutation, for any BEq instance. -/
theorem count_eq_of_perm {α : Type} [BEq α] {l₁ l₂ : List α}
    (h : List.Perm l₁ l₂) (a : α) : l₁.count a = l₂.count a := by
  induction h with
  | nil => rfl
  | cons x _ ih => simp only [List.count_cons, ih]
  | swap x y l =>
    simp only [List.count_cons]
    omega
  | trans _ _ ih1 ih2 => exact ih1.trans ih2

/-- A successful pair merge comes from some splice. -/
theorem tryMergePair_spec {f g m : List Nat} (h : tryMergePair f g = some m) :
    ∃ r1 r2 : Nat, spliceAt f g r1 r2 = some m := by
  obtain ⟨r1, _, h1⟩ := List.exists_of_findSome?_eq_some h
  obtain ⟨r2, _, h2⟩ := List.exists_of_findSome?_eq_some h1
  exact ⟨r1, r2, h2⟩

/-- A found partner splits the face list, up to permutation. -/
theorem findPartner_spec {f : List Nat} :
    ∀ {l : List (List Nat)} {m : List Nat} {rest : List (List Nat)},
      findPartner f l = some (m, rest) →
      ∃ g, tryMergePair f g = some m ∧ List.Perm l (g :: rest) := by
  intro l
  induction l with
  | nil =>
    intro m rest h
    simp [findPartner] at h
  | cons g gs ih =>
    intro m rest h
    rw [findPartner] at h
    cases h1 : tryMergePair f g with
    | some m0 =>
      rw [h1] at h
      simp only [Option.some.injEq, Prod.mk.injEq] at h
      obtain ⟨rfl, rfl⟩ := h
      exact ⟨g, h1, List.Perm.refl _⟩
    | none =>
      rw [h1] at h
      cases h2 : findPartner f gs with
      | some pr =>
        obtain ⟨m0, rest0⟩ := pr
        rw [h2] at h
        simp only [Option.some.injEq, Prod.mk.injEq] at h
        obtain ⟨rfl, rfl⟩ := h
        obtain ⟨g2, hg2, hperm⟩ := ih h2
        exact ⟨g2, hg2, (hperm.cons g).trans (List.Perm.swap g2 g rest0)⟩
      | none =>
        rw [h2] at h
        simp at h

/-- One merge step removes exactly one matched pair of opposite directed
edges from the edge multiset of the mesh, and shrinks the face count by 1. -/
theorem mergeStep_spec :
    ∀ {fs fs2 : List (List Nat)}, mergeStep fs = some fs2 →
      (∃ u v : Nat,
        List.Perm (meshEdges fs2 ++ [(u, v), (v, u)]) (meshEdges fs)) ∧
      fs2.length + 1 = fs.length := by
  intro fs
  induction fs with
  | nil =>
    intro fs2 h
    simp [mergeStep] at h
  | cons f t ih =>
    intro fs2 h
    rw [mergeStep] at h
    cases h1 : findPartner f t with
    | some pr =>
      obtain ⟨m, rest⟩ := pr
      rw [h1] at h
      simp only [Option.some.injEq] at h
      subst h
      obtain ⟨g, hmg, hperm⟩ := findPartner_spec h1
      obtain ⟨r1, r2, hsp⟩ := tryMergePair_spec hmg
      obtain ⟨u, v, hedge⟩ := spliceAt_edges hsp
      constructor
      · refine ⟨u, v, ?_⟩
        rw [← Multiset.coe_eq_coe]
        have hedgeM : (↑(cycEdges m) : Multiset (Nat × Nat)) +
            ↑([(u, v), (v, u)] : List (Nat × Nat)) =
            ↑(cycEdges f) + ↑(cycEdges g) := by
          rw [Multiset.coe_add, Multiset.coe_add, Multiset.coe_eq_coe]
          exact hedge
        have htM : (↑(meshEdges t) : Multiset (Nat × Nat)) =
            ↑(cycEdges g) + ↑(meshEdges rest) := by
          rw [Multiset.coe_add, Multiset.coe_eq_coe]
          have h3 := hperm.flatMap_right cycEdges
          simpa [meshEdges, List.flatMap_cons] using h3
        rw [show meshEdges (m :: rest) = cycEdges m ++ meshEdges rest from by
          simp [meshEdges, List.flatMap_cons]]
        rw [show meshEdges (f :: t) = cycEdges f ++ meshEdges t from by
          simp [meshEdges, List.flatMap_cons]]
        simp only [← Multiset.coe_add]
        rw [htM, ← add_assoc, ← hedgeM]
        abel
      · have hlt : t.length = rest.length + 1 := by
          rw [hperm.length_eq]
          rfl
        simp only [List.length_cons]
        omega
    | none =>
      rw [h1] at h
      cases h2 : mergeStep t with
      | some t2 =>
        rw [h2] at h
        simp only [Option.map_some', Option.some.injEq] at h
        subst h
        obtain ⟨⟨u, v, hperm⟩, hlen⟩ := ih h2
        constructor
        · refine ⟨u, v, ?_⟩
          rw [← Multiset.coe_eq_coe]
          have hM : (↑(meshEdges t2) : Multiset (Nat × Nat)) +
              ↑([(u, v), (v, u)] : List (Nat × Nat)) = ↑(meshEdges t) := by
            rw [Multiset.coe_add, Multiset.coe_eq_coe]
            exact hperm
          rw [show meshEdges (f :: t2) = cycEdges f ++ meshEdges t2 from by
            simp [meshEdges, List.flatMap_cons]]
          rw [show meshEdges (f :: t) = cycEdges f ++ meshEdges t from by
            simp [meshEdges, List.flatMap_cons]]
          simp only [← Multiset.coe_add]
          rw [← hM]
          abel
        · simp only [List.length_cons]
          omega
      | none =>
        rw [h2] at h
        simp at h

/-- The merge loop with fuel at least the face count reaches a fixpoint. -/
theorem dissolve_go_fixpoint : ∀ (fuel : Nat) (fs : List (List Nat)),
    fs.length ≤ fuel → mergeStep (dissolve_go fuel fs) = none := by
  intro fuel
  induction fuel with
  | zero =>
    intro fs hle
    have hnil : fs = [] := List.length_eq_zero.mp (by omega)
    subst hnil
    rfl
  | succ fuel ih =>
    intro fs hle
    rw [dissolve_go]
    cases h : mergeStep fs with
    | some fs2 =>
      have hlen := (mergeStep_spec h).2
      exact ih fs2 (by omega)
    | none => exact h

/-- With no mergeable pair, the merge loop is the identity. -/
theorem dissolve_go_of_none {fs : List (List Nat)} (h : mergeStep fs = none) :
    ∀ fuel : Nat, dissolve_go fuel fs = fs := by
  intro fuel
  cases fuel with
  | zero => rfl
  | succ fuel =>
    rw [dissolve_go, h]

/-- Counting either orientation in a matched pair is symmetric. -/
theorem count_pair_symm (u v a b : Nat) :
    List.count (a, b) [(u, v), (v, u)] = List.count (b, a) [(u, v), (v, u)] := by
  have e1 : ((u, v) = (a, b)) ↔ ((v, u) = (b, a)) := by
    rw [Prod.ext_iff, Prod.ext_iff]
    tauto
  have e2 : ((v, u) = (a, b)) ↔ ((u, v) = (b, a)) := by
    rw [Prod.ext_iff, Prod.ext_iff]
    tauto
  simp only [List.count_cons, List.count_nil, beq_iff_eq]
  rw [if_congr e1 rfl rfl, if_congr e2 rfl rfl]
  omega

/-- One merge step preserves the boundary chain. -/
theorem mergeStep_bdChain {fs fs2 : List (List Nat)}
    (h : mergeStep fs = some fs2) (e : Nat × Nat) :
    bdChain fs2 e = bdChain fs e := by
  obtain ⟨a, b⟩ := e
  obtain ⟨u, v, hperm⟩ := (mergeStep_spec h).1
  have h1 := count_eq_of_perm hperm (a, b)
  have h2 := count_eq_of_perm hperm (b, a)
  rw [List.count_append] at h1 h2
  have h3 := count_pair_symm u v a b
  rw [bdChain, bdChain]
  dsimp only
  omega

/-- One merge step preserves the shoelace area. -/
theorem mergeStep_area {K : Type} [Field K] (verts : List (K × K × K))
    {fs fs2 : List (List Nat)} (h : mergeStep fs = some fs2) :
    doubleArea verts fs2 = doubleArea verts fs := by
  obtain ⟨u, v, hperm⟩ := (mergeStep_spec h).1
  have hsum := (hperm.map (crossTerm verts)).sum_eq
  rw [List.map_append, List.sum_append] at hsum
  have hpair : (([(u, v), (v, u)] : List (Nat × Nat)).map (crossTerm verts)).sum = 0 := by
    simp [crossTerm]
    ring
  rw [hpair, add_zero] at hsum
  exact hsum

/-- The merge loop preserves the boundary chain. -/
theorem dissolve_go_bdChain : ∀ (fuel : Nat) (fs : List (List Nat)) (e : Nat × Nat),
    bdChain (dissolve_go fuel fs) e = bdChain fs e := by
  intro fuel
  induction fuel with
  | zero => intro fs e; rfl
  | succ fuel ih =>
    intro fs e
    rw [dissolve_go]
    cases h : mergeStep fs with
    | some fs2 => exact (ih fs2 e).trans (mergeStep_bdChain h e)
    | none => rfl

/-- The merge loop preserves the shoelace area. -/
theorem dissolve_go_area {K : Type} [Field K] (verts : List (K × K × K)) :
    ∀ (fuel : Nat) (fs : List (List Nat)),
      doubleArea verts (dissolve_go fuel fs) = doubleArea verts fs := by
  intro fuel
  induction fuel with
  | zero => intro fs; rfl
  | succ fuel ih =>
    intro fs
    rw [dissolve_go]
    cases h : mergeStep fs with
    | some fs2 => exact (ih fs2).trans (mergeStep_area verts h)
    | none => rfl

/-- The merge loop never increases the face count. -/
theorem dissolve_go_length : ∀ (fuel : Nat) (fs : List (List Nat)),
    (dissolve_go fuel fs).length ≤ fs.length := by
  intro fuel
  induction fuel with
  | zero => intro fs; exact Nat.le_refl _
  | succ fuel ih =>
    intro fs
    rw [dissolve_go]
    cases h : mergeStep fs with
    | some fs2 =>
      have hlen := (mergeStep_spec h).2
      have h2 := ih fs2
      show (dissolve_go fuel fs2).length ≤ fs.length
      omega
    | none => exact Nat.le_refl _

/-- C6: the coplanar face merge leaves the shoelace area and the boundary
silhouette (the signed directed-edge multiplicities) of the planar mesh
unchanged — hence the merged polygons still tile exactly the same region —
does not increase the polygon count or the vertex count, and is a no-op on
an already-fully-merged mesh. -/
theorem dissolve_limited_invariants {K : Type} [Field K] (m : Mesh K) :
    (∀ e : Nat × Nat, bdChain (dissolveMesh m).faces e = bdChain m.faces e) ∧
    doubleArea (dissolveMesh m).verts (dissolveMesh m).faces =
      doubleArea m.verts m.faces ∧
    (dissolveMesh m).faces.length ≤ m.faces.length ∧
    (dissolveMesh m).verts.length ≤ m.verts.length ∧
    (mergeStep m.faces = none → dissolveMesh m = m) := by
  refine ⟨?_, ?_, ?_, ?_, ?_⟩
  · intro e
    exact dissolve_go_bdChain _ _ e
  · exact dissolve_go_area _ _ _
  · exact dissolve_go_length _ _
  · exact Nat.le_refl _
  · intro hnone
    unfold dissolveMesh dissolve_limited
    rw [dissolve_go_of_none hnone]

/-- Witness for `dissolve_limited_invariants`: a single quad is already
fully merged, and the merge pass leaves it untouched. -/
theorem dissolve_limited_invariants_witness :
    mergeStep ([[0, 1, 2, 3]] : List (List Nat)) = none ∧
    dissolveMesh (Mesh.mk [((0 : ℚ), (0 : ℚ), (0 : ℚ)), (1, 0, 0), (1, 1, 0), (0, 1, 0)]
      [[0, 1, 2, 3]]) =
      Mesh.mk [((0 : ℚ), (0 : ℚ), (0 : ℚ)), (1, 0, 0), (1, 1, 0), (0, 1, 0)]
        [[0, 1, 2, 3]] :=
  ⟨by decide,
   (dissolve_limited_invariants
     (Mesh.mk [((0 : ℚ), (0 : ℚ), (0 : ℚ)), (1, 0, 0), (1, 1, 0), (0, 1, 0)]
       [[0, 1, 2, 3]])).2.2.2.2 (by decide)⟩

/-- Bound on the number of occupied cells. -/
theorem sum_map_le_nat {α : Type} (f g : α → Nat) :
    ∀ l : List α, (∀ a ∈ l, f a ≤ g a) → (l.map f).sum ≤ (l.map g).sum := by
  intro l
  induction l with
  | nil => intro _; exact Nat.le_refl _
  | cons a t ih =>
    intro hfg
    simp only [List.map_cons, List.sum_cons]
    have h1 := hfg a (by simp)
    have h2 := ih (fun b hb => hfg b (by simp [hb]))
    omega

/-- The builder emits as many faces as occupied cells. -/
theorem create_wall_faces_length (h w : Nat) (occ : Nat → Nat → Bool) :
    (create_wall_faces h w occ).length = occCount h w occ := by
  rw [create_wall_faces_eq, occCount, List.length_flatMap]
  apply congrArg List.sum
  apply List.map_congr_left
  intro r _
  simp [Function.comp]

/-- C9: the pipeline is a total function; in particular the coplanar merge
loop reaches a state with no further merge possible within a number of steps
bounded by the face count, which is itself bounded by the grid size. -/
theorem pipeline_terminates (h w : Nat) (occ : Nat → Nat → Bool) :
    mergeStep (dissolve_limited (create_wall_faces h w occ)) = none ∧
    (create_wall_faces h w occ).length ≤ h * w ∧
    (∀ fs : List (List Nat), mergeStep (dissolve_limited fs) = none) := by
  refine ⟨?_, ?_, ?_⟩
  · exact dissolve_go_fixpoint _ _ (Nat.le_refl _)
  · rw [create_wall_faces_length, occCount]
    have hb := sum_map_le_nat
      (fun r => ((List.range w).filter (fun c => occ r c)).length)
      (fun _ => w) (List.range h)
      (fun r _ => (List.length_filter_le _ _).trans (by simp))
    rw [sum_map_const_nat, List.length_range] at hb
    exact hb
  · intro fs
    exact dissolve_go_fixpoint _ _ (Nat.le_refl _)

/-! ### Extrusion -/

/-- Edges of a walk under a vertex relabeling. -/
theorem pathEdges_map (g : Nat → Nat) :
    ∀ (l : List Nat) (a : Nat),
      pathEdges (l.map g) (g a) = (pathEdges l a).map (fun e => (g e.1, g e.2)) := by
  intro l
  induction l with
  | nil => intro a; rfl
  | cons x t ih =>
    intro a
    cases t with
    | nil => rfl
    | cons y rest =>
      show (g x, g y) :: pathEdges ((y :: rest).map g) (g a) =
        (g x, g y) :: (pathEdges (y :: rest) a).map (fun e => (g e.1, g e.2))
      rw [ih a]

/-- Cyclic edges of a relabeled face. -/
theorem cycEdges_map (g : Nat → Nat) (f : List Nat) :
    cycEdges (f.map g) = (cycEdges f).map (fun e => (g e.1, g e.2)) := by
  cases f with
  | nil => rfl
  | cons a rest =>
    show pathEdges ((a :: rest).map g) (g a) = _
    rw [pathEdges_map g (a :: rest) a]
    rfl

/-- Edges of a reversed walk are the swapped edges, as a multiset. -/
theorem pathEdges_reverse :
    ∀ (l : List Nat) (x y : Nat),
      List.Perm (pathEdges (x :: l.reverse) y)
        ((pathEdges (y :: l) x).map Prod.swap) := by
  intro l
  induction l with
  | nil =>
    intro x y
    exact List.Perm.refl _
  | cons r rs ih =>
    intro x y
    have hrev : (r :: rs).reverse = rs.reverse ++ [r] := by simp
    rw [hrev]
    have hsplit : pathEdges (x :: (rs.reverse ++ [r])) y =
        pathEdges (x :: rs.reverse) r ++ [(r, y)] := by
      rw [show x :: (rs.reverse ++ [r]) = (x :: rs.reverse) ++ r :: [] from by simp,
        pathEdges_append_cons (x :: rs.reverse) r [] y (by simp)]
      rfl
    rw [hsplit]
    have hrhs : (pathEdges (y :: r :: rs) x).map Prod.swap =
        (r, y) :: (pathEdges (r :: rs) x).map Prod.swap := rfl
    rw [hrhs]
    have step1 := (ih x r).append_right [(r, y)]
    have step2 := List.perm_append_singleton (r, y)
      ((pathEdges (r :: rs) x).map Prod.swap)
    exact step1.trans step2

/-- Cyclic edges of a reversed face are the swapped edges, as a multiset. -/
theorem cycEdges_reverse (f : List Nat) :
    List.Perm (cycEdges f.reverse) ((cycEdges f).map Prod.swap) := by
  cases f with
  | nil => exact List.Perm.refl _
  | cons a rest =>
    have hrev : (a :: rest).reverse = rest.reverse ++ [a] := by simp
    rw [hrev]
    have hrot : List.Perm (cycEdges (rest.reverse ++ [a]))
        (cycEdges ([a] ++ rest.reverse)) := by
      have := cycEdges_rotate_perm rest.reverse.length (rest.reverse ++ [a])
      rw [List.rotate_append_length_eq] at this
      exact this.symm
    refine hrot.trans ?_
    show List.Perm (cycEdges (a :: rest.reverse)) _
    have h1 : cycEdges (a :: rest.reverse) = pathEdges (a :: rest.reverse) a := rfl
    have h2 : cycEdges (a :: rest) = pathEdges (a :: rest) a := rfl
    rw [h1, h2]
    exact pathEdges_reverse rest a a

/-- Sum of a pointwise indicator is a count. -/
theorem sum_indicator_count {α : Type} [DecidableEq α] [BEq α] [LawfulBEq α] (a : α) :
    ∀ l : List α, (l.map (fun x => if x = a then 1 else 0)).sum = l.count a := by
  intro l
  induction l with
  | nil => rfl
  | cons x t ih =>
    by_cases hx : x = a <;> simp [List.count_cons, hx, ih] <;> omega

/-- Sum of a pointwise predicate indicator is a countP. -/
theorem sum_indicator_countP {α : Type} (p : α → Bool) :
    ∀ l : List α, (l.map (fun x => if p x then 1 else 0)).sum = l.countP p := by
  intro l
  induction l with
  | nil => rfl
  | cons x t ih =>
    by_cases hx : p x <;> simp [List.countP_cons, hx, ih] <;> omega

/-- In a duplicate-free list every count is at most one. -/
theorem count_le_one_of_nodup {α : Type} [BEq α] [LawfulBEq α] :
    ∀ {l : List α}, l.Nodup → ∀ a : α, l.count a ≤ 1 := by
  intro l
  induction l with
  | nil => intro _ a; simp
  | cons x t ih =>
    intro hnd a
    rw [List.nodup_cons] at hnd
    by_cases hx : x = a
    · subst hx
      rw [List.count_cons_self, List.count_eq_zero.mpr hnd.1]
    · rw [List.count_cons_of_ne (fun hc => hx hc.symm)]
      exact ih hnd.2 a

/-- Counting in a swapped edge list. -/
theorem count_map_swap (E : List (Nat × Nat)) (a b : Nat) :
    (E.map Prod.swap).count (a, b) = E.count (b, a) := by
  have h := count_map_inj (α := Nat × Nat) Prod.swap
    (fun x y hxy => by
      obtain ⟨x1, x2⟩ := x
      obtain ⟨y1, y2⟩ := y
      simp [Prod.swap, Prod.ext_iff] at hxy
      simp [Prod.ext_iff, hxy]) (b, a) E
  exact h

/-- Counting in a shifted edge list. -/
theorem count_map_shift (E : List (Nat × Nat)) (n a b : Nat) :
    (E.map (fun e => (e.1 + n, e.2 + n))).count (a + n, b + n) = E.count (a, b) := by
  have h := count_map_inj (α := Nat × Nat) (fun e => (e.1 + n, e.2 + n))
    (fun x y hxy => by
      obtain ⟨x1, x2⟩ := x
      obtain ⟨y1, y2⟩ := y
      simp [Prod.ext_iff] at hxy
      simp [Prod.ext_iff]
      omega) (a, b) E
  exact h

/-- Counting an element outside the image of a map. -/
theorem count_map_eq_zero {α β : Type} [BEq β] [LawfulBEq β] (f : α → β)
    (l : List α) (x : β) (hx : ∀ a ∈ l, f a ≠ x) : (l.map f).count x = 0 := by
  apply List.count_eq_zero.mpr
  intro hmem
  obtain ⟨a, ha, rfl⟩ := List.mem_map.mp hmem
  exact hx a ha rfl

/-- Edges of the mesh with all faces reversed: the swapped edges. -/
theorem meshEdges_reverse_perm :
    ∀ fs : List (List Nat),
      List.Perm (meshEdges (fs.map List.reverse)) ((meshEdges fs).map Prod.swap) := by
  intro fs
  induction fs with
  | nil => exact List.Perm.refl _
  | cons f t ih =>
    rw [show meshEdges ((f :: t).map List.reverse) =
        cycEdges f.reverse ++ meshEdges (t.map List.reverse) from by
      simp [meshEdges, List.flatMap_cons]]
    rw [show (meshEdges (f :: t)).map Prod.swap =
        (cycEdges f).map Prod.swap ++ (meshEdges t).map Prod.swap from by
      simp [meshEdges, List.flatMap_cons]]
    exact (cycEdges_reverse f).append ih

/-- Edges of the mesh with all faces relabeled. -/
theorem meshEdges_map (g : Nat → Nat) :
    ∀ fs : List (List Nat),
      meshEdges (fs.map (List.map g)) =
        (meshEdges fs).map (fun e => (g e.1, g e.2)) := by
  intro fs
  induction fs with
  | nil => rfl
  | cons f t ih =>
    rw [show meshEdges ((f :: t).map (List.map g)) =
        cycEdges (f.map g) ++ meshEdges (t.map (List.map g)) from by
      simp [meshEdges, List.flatMap_cons]]
    rw [show (meshEdges (f :: t)).map (fun e => (g e.1, g e.2)) =
        (cycEdges f).map (fun e => (g e.1, g e.2)) ++
          (meshEdges t).map (fun e => (g e.1, g e.2)) from by
      simp [meshEdges, List.flatMap_cons]]
    rw [cycEdges_map g f, ih]

/-- Edges of an appended face list. -/
theorem meshEdges_append (l1 l2 : List (List Nat)) :
    meshEdges (l1 ++ l2) = meshEdges l1 ++ meshEdges l2 := by
  simp [meshEdges, List.flatMap_append]

/-- Sum of a pointwise indicator of a decidable predicate is a countP. -/
theorem sum_indicator_countP_prop {α : Type} (pr : α → Prop) [DecidablePred pr] :
    ∀ l : List α,
      (l.map (fun x => if pr x then 1 else 0)).sum = l.countP (fun x => decide (pr x)) := by
  intro l
  induction l with
  | nil => rfl
  | cons x t ih =>
    by_cases hx : pr x <;> simp [List.countP_cons, hx, ih] <;> omega

/-- Manifoldness of the extruded solid, combinatorial core: for a
consistently wound planar mesh — every directed edge occurring at most once,
no degenerate edges, indices within the vertex range, and every vertex lying
on 0 or 2 boundary edges — every edge of the extruded solid is shared by
exactly two faces. -/
theorem extrude_manifold_core (n : Nat) (fs : List (List Nat))
    (hrange : ∀ e ∈ meshEdges fs, e.1 < n ∧ e.2 < n)
    (hsimple : ∀ e ∈ meshEdges fs, e.1 ≠ e.2)
    (hnd : (meshEdges fs).Nodup)
    (hvert : ∀ x : Nat, x < n → bdDeg fs x = 0 ∨ bdDeg fs x = 2) :
    ∀ e ∈ meshEdges (fs.map List.reverse ++ fs.map (List.map (fun i => i + n)) ++
        (boundaryEdges fs).map (sideQuad n)),
      udCount (meshEdges (fs.map List.reverse ++ fs.map (List.map (fun i => i + n)) ++
        (boundaryEdges fs).map (sideQuad n))) e = 2 := by
  intro e he
  obtain ⟨a, b⟩ := e
  have honce : ∀ x : Nat × Nat, (meshEdges fs).count x ≤ 1 :=
    count_le_one_of_nodup hnd
  have hsplit : meshEdges (fs.map List.reverse ++ fs.map (List.map (fun i => i + n)) ++
      (boundaryEdges fs).map (sideQuad n)) =
      meshEdges (fs.map List.reverse) ++ meshEdges (fs.map (List.map (fun i => i + n))) ++
        meshEdges ((boundaryEdges fs).map (sideQuad n)) := by
    rw [meshEdges_append, meshEdges_append]
  have hEb : ∀ x y : Nat,
      (meshEdges (fs.map List.reverse)).count (x, y) = (meshEdges fs).count (y, x) := by
    intro x y
    rw [count_eq_of_perm (meshEdges_reverse_perm fs) (x, y), count_map_swap]
  have hEt : ∀ x y : Nat,
      (meshEdges (fs.map (List.map (fun i => i + n)))).count (x + n, y + n) =
        (meshEdges fs).count (x, y) := by
    intro x y
    rw [meshEdges_map, count_map_shift]
  have hEt0 : ∀ x y : Nat, x < n ∨ y < n →
      (meshEdges (fs.map (List.map (fun i => i + n)))).count (x, y) = 0 := by
    intro x y hxy
    rw [meshEdges_map]
    apply count_map_eq_zero
    intro e2 _ hc
    rw [Prod.ext_iff] at hc
    dsimp only at hc
    omega
  have hEb0 : ∀ x y : Nat, n ≤ x ∨ n ≤ y →
      (meshEdges (fs.map List.reverse)).count (x, y) = 0 := by
    intro x y hxy
    rw [hEb]
    apply List.count_eq_zero.mpr
    intro hmem
    have hr := hrange _ hmem
    dsimp only at hr
    omega
  have hBsub : ∀ e2 ∈ boundaryEdges fs, e2 ∈ meshEdges fs :=
    fun e2 he2 => (List.mem_filter.mp he2).1
  have hBfacts : ∀ e2 ∈ boundaryEdges fs, e2.1 < n ∧ e2.2 < n ∧ e2.1 ≠ e2.2 :=
    fun e2 he2 => ⟨(hrange _ (hBsub e2 he2)).1, (hrange _ (hBsub e2 he2)).2,
      hsimple _ (hBsub e2 he2)⟩
  have hBcount : ∀ x y : Nat, (boundaryEdges fs).count (x, y) =
      if (meshEdges fs).count (y, x) = 0 then (meshEdges fs).count (x, y) else 0 := by
    intro x y
    by_cases hz : (meshEdges fs).count (y, x) = 0
    · rw [if_pos hz, boundaryEdges, List.count_filter (by simp [hz])]
    · rw [if_neg hz]
      apply List.count_eq_zero.mpr
      intro hmem
      have hf := (List.mem_filter.mp hmem).2
      simp only [decide_eq_true_eq] at hf
      exact hz hf
  have hEsCount : ∀ x : Nat × Nat,
      (meshEdges ((boundaryEdges fs).map (sideQuad n))).count x =
        ((boundaryEdges fs).map (fun e2 => List.count x
          [(e2.1, e2.2), (e2.2, e2.2 + n), (e2.2 + n, e2.1 + n), (e2.1 + n, e2.1)])).sum := by
    intro x
    rw [meshEdges, List.flatMap_map]
    exact count_flatMap _ x _
  have hpos : 0 < (meshEdges (fs.map List.reverse ++ fs.map (List.map (fun i => i + n)) ++
      (boundaryEdges fs).map (sideQuad n))).count (a, b) :=
    List.count_pos_iff.mpr he
  rw [udCount]
  dsimp only
  rw [hsplit] at hpos ⊢
  simp only [List.count_append] at hpos ⊢
  by_cases ha : a < n
  · by_cases hb : b < n
    · -- both endpoints at the bottom level
      have hbot : ∀ x y : Nat, x < n → y < n →
          ((boundaryEdges fs).map (fun e2 => List.count (x, y)
            [(e2.1, e2.2), (e2.2, e2.2 + n), (e2.2 + n, e2.1 + n), (e2.1 + n, e2.1)])).sum =
            (boundaryEdges fs).count (x, y) := by
        intro x y hx hy
        have hpt : ∀ e2 ∈ boundaryEdges fs, List.count (x, y)
            [(e2.1, e2.2), (e2.2, e2.2 + n), (e2.2 + n, e2.1 + n), (e2.1 + n, e2.1)] =
            if e2 = (x, y) then 1 else 0 := by
          intro e2 he2
          obtain ⟨u, v⟩ := e2
          obtain ⟨hu, hv, huv⟩ := hBfacts (u, v) he2
          dsimp only at hu hv huv
          simp only [List.count_cons, List.count_nil, beq_iff_eq, Prod.mk.injEq]
          split_ifs <;> omega
        rw [List.map_congr_left hpt, sum_indicator_count]
      rw [hEb a b, hEt0 a b (Or.inl ha), hEsCount, hbot a b ha hb,
        hBcount a b] at hpos
      rw [hEb a b, hEb b a, hEt0 a b (Or.inl ha), hEt0 b a (Or.inl hb),
        hEsCount, hEsCount, hbot a b ha hb, hbot b a hb ha,
        hBcount a b, hBcount b a]
      have h1 := honce (a, b)
      have h2 := honce (b, a)
      by_cases hy : (meshEdges fs).count (b, a) = 0 <;>
        by_cases hx : (meshEdges fs).count (a, b) = 0 <;>
        simp only [hy, hx, if_true, if_false, ite_true, ite_false] at hpos ⊢ <;>
        omega
    · -- mixed: a at the bottom level, b at the top level
      have hbn : n ≤ b := Nat.le_of_not_lt hb
      by_cases hab : b = a + n
      · subst hab
        have e5 : ((boundaryEdges fs).map (fun e2 => List.count (a, a + n)
            [(e2.1, e2.2), (e2.2, e2.2 + n), (e2.2 + n, e2.1 + n), (e2.1 + n, e2.1)])).sum =
            (boundaryEdges fs).countP (fun e2 => decide (e2.2 = a)) := by
          have hpt : ∀ e2 ∈ boundaryEdges fs, List.count (a, a + n)
              [(e2.1, e2.2), (e2.2, e2.2 + n), (e2.2 + n, e2.1 + n), (e2.1 + n, e2.1)] =
              if e2.2 = a then 1 else 0 := by
            intro e2 he2
            obtain ⟨u, v⟩ := e2
            obtain ⟨hu, hv, huv⟩ := hBfacts (u, v) he2
            dsimp only at hu hv huv ⊢
            simp only [List.count_cons, List.count_nil, beq_iff_eq, Prod.mk.injEq]
            split_ifs <;> omega
          rw [List.map_congr_left hpt, sum_indicator_countP_prop]
        have e6 : ((boundaryEdges fs).map (fun e2 => List.count (a + n, a)
            [(e2.1, e2.2), (e2.2, e2.2 + n), (e2.2 + n, e2.1 + n), (e2.1 + n, e2.1)])).sum =
            (boundaryEdges fs).countP (fun e2 => decide (e2.1 = a)) := by
          have hpt : ∀ e2 ∈ boundaryEdges fs, List.count (a + n, a)
              [(e2.1, e2.2), (e2.2, e2.2 + n), (e2.2 + n, e2.1 + n), (e2.1 + n, e2.1)] =
              if e2.1 = a then 1 else 0 := by
            intro e2 he2
            obtain ⟨u, v⟩ := e2
            obtain ⟨hu, hv, huv⟩ := hBfacts (u, v) he2
            dsimp only at hu hv huv ⊢
            simp only [List.count_cons, List.count_nil, beq_iff_eq, Prod.mk.injEq]
            split_ifs <;> omega
          rw [List.map_congr_left hpt, sum_indicator_countP_prop]
        rw [hEb0 a (a + n) (Or.inr (by omega)), hEt0 a (a + n) (Or.inl ha),
          hEsCount, e5] at hpos
        rw [hEb0 a (a + n) (Or.inr (by omega)), hEb0 (a + n) a (Or.inl (by omega)),
          hEt0 a (a + n) (Or.inl ha), hEt0 (a + n) a (Or.inr ha),
          hEsCount, hEsCount, e5, e6]
        have hdeg : (boundaryEdges fs).countP (fun e2 => decide (e2.2 = a)) +
            (boundaryEdges fs).countP (fun e2 => decide (e2.1 = a)) = bdDeg fs a := by
          rw [bdDeg]
          omega
        rcases hvert a ha with h0 | h2 <;> omega
      · -- impossible vertical shape: every side-quad count vanishes
        exfalso
        have e5 : ((boundaryEdges fs).map (fun e2 => List.count (a, b)
            [(e2.1, e2.2), (e2.2, e2.2 + n), (e2.2 + n, e2.1 + n), (e2.1 + n, e2.1)])).sum = 0 := by
          have hpt : ∀ e2 ∈ boundaryEdges fs, List.count (a, b)
              [(e2.1, e2.2), (e2.2, e2.2 + n), (e2.2 + n, e2.1 + n), (e2.1 + n, e2.1)] = 0 := by
            intro e2 he2
            obtain ⟨u, v⟩ := e2
            obtain ⟨hu, hv, huv⟩ := hBfacts (u, v) he2
            dsimp only at hu hv huv
            simp only [List.count_cons, List.count_nil, beq_iff_eq, Prod.mk.injEq]
            split_ifs <;> omega
          rw [List.map_congr_left hpt]
          rw [sum_map_const_nat]
          omega
        rw [hEb0 a b (Or.inr hbn), hEt0 a b (Or.inl ha), hEsCount, e5] at hpos
        omega
  · have han : n ≤ a := Nat.le_of_not_lt ha
    by_cases hb : b < n
    · -- mixed: b at the bottom level, a at the top level
      by_cases hab : a = b + n
      · subst hab
        have e5 : ((boundaryEdges fs).map (fun e2 => List.count (b + n, b)
            [(e2.1, e2.2), (e2.2, e2.2 + n), (e2.2 + n, e2.1 + n), (e2.1 + n, e2.1)])).sum =
            (boundaryEdges fs).countP (fun e2 => decide (e2.1 = b)) := by
          have hpt : ∀ e2 ∈ boundaryEdges fs, List.count (b + n, b)
              [(e2.1, e2.2), (e2.2, e2.2 + n), (e2.2 + n, e2.1 + n), (e2.1 + n, e2.1)] =
              if e2.1 = b then 1 else 0 := by
            intro e2 he2
            obtain ⟨u, v⟩ := e2
            obtain ⟨hu, hv, huv⟩ := hBfacts (u, v) he2
            dsimp only at hu hv huv ⊢
            simp only [List.count_cons, List.count_nil, beq_iff_eq, Prod.mk.injEq]
            split_ifs <;> omega
          rw [List.map_congr_left hpt, sum_indicator_countP_prop]
        have e6 : ((boundaryEdges fs).map (fun e2 => List.count (b, b + n)
            [(e2.1, e2.2), (e2.2, e2.2 + n), (e2.2 + n, e2.1 + n), (e2.1 + n, e2.1)])).sum =
            (boundaryEdges fs).countP (fun e2 => decide (e2.2 = b)) := by
          have hpt : ∀ e2 ∈ boundaryEdges fs, List.count (b, b + n)
              [(e2.1, e2.2), (e2.2, e2.2 + n), (e2.2 + n, e2.1 + n), (e2.1 + n, e2.1)] =
              if e2.2 = b then 1 else 0 := by
            intro e2 he2
            obtain ⟨u, v⟩ := e2
            obtain ⟨hu, hv, huv⟩ := hBfacts (u, v) he2
            dsimp only at hu hv huv ⊢
            simp only [List.count_cons, List.count_nil, beq_iff_eq, Prod.mk.injEq]
            split_ifs <;> omega
          rw [List.map_congr_left hpt, sum_indicator_countP_prop]
        rw [hEb0 (b + n) b (Or.inl (by omega)), hEt0 (b + n) b (Or.inr hb),
          hEsCount, e5] at hpos
        rw [hEb0 (b + n) b (Or.inl (by omega)), hEb0 b (b + n) (Or.inr (by omega)),
          hEt0 (b + n) b (Or.inr hb), hEt0 b (b + n) (Or.inl hb),
          hEsCount, hEsCount, e5, e6]
        have hdeg : (boundaryEdges fs).countP (fun e2 => decide (e2.1 = b)) +
            (boundaryEdges fs).countP (fun e2 => decide (e2.2 = b)) = bdDeg fs b := by
          rw [bdDeg]
        rcases hvert b hb with h0 | h2 <;> omega
      · exfalso
        have e5 : ((boundaryEdges fs).map (fun e2 => List.count (a, b)
            [(e2.1, e2.2), (e2.2, e2.2 + n), (e2.2 + n, e2.1 + n), (e2.1 + n, e2.1)])).sum = 0 := by
          have hpt : ∀ e2 ∈ boundaryEdges fs, List.count (a, b)
              [(e2.1, e2.2), (e2.2, e2.2 + n), (e2.2 + n, e2.1 + n), (e2.1 + n, e2.1)] = 0 := by
            intro e2 he2
            obtain ⟨u, v⟩ := e2
            obtain ⟨hu, hv, huv⟩ := hBfacts (u, v) he2
            dsimp only at hu hv huv
            simp only [List.count_cons, List.count_nil, beq_iff_eq, Prod.mk.injEq]
            split_ifs <;> omega
          rw [List.map_congr_left hpt]
          rw [sum_map_const_nat]
          omega
        rw [hEb0 a b (Or.inl han), hEt0 a b (Or.inr hb), hEsCount, e5] at hpos
        omega
    · -- both endpoints at the top level
      have hbn : n ≤ b := Nat.le_of_not_lt hb
      obtain ⟨a2, rfl⟩ : ∃ a2, a = a2 + n := ⟨a - n, by omega⟩
      obtain ⟨b2, rfl⟩ : ∃ b2, b = b2 + n := ⟨b - n, by omega⟩
      have htop : ∀ x y : Nat,
          ((boundaryEdges fs).map (fun e2 => List.count (x + n, y + n)
            [(e2.1, e2.2), (e2.2, e2.2 + n), (e2.2 + n, e2.1 + n), (e2.1 + n, e2.1)])).sum =
            (boundaryEdges fs).count (y, x) := by
        intro x y
        have hpt : ∀ e2 ∈ boundaryEdges fs, List.count (x + n, y + n)
            [(e2.1, e2.2), (e2.2, e2.2 + n), (e2.2 + n, e2.1 + n), (e2.1 + n, e2.1)] =
            if e2 = (y, x) then 1 else 0 := by
          intro e2 he2
          obtain ⟨u, v⟩ := e2
          obtain ⟨hu, hv, huv⟩ := hBfacts (u, v) he2
          dsimp only at hu hv huv
          simp only [List.count_cons, List.count_nil, beq_iff_eq, Prod.mk.injEq]
          split_ifs <;> omega
        rw [List.map_congr_left hpt, sum_indicator_count]
      rw [hEb0 (a2 + n) (b2 + n) (Or.inl (by omega)), hEt a2 b2,
        hEsCount, htop a2 b2, hBcount b2 a2] at hpos
      rw [hEb0 (a2 + n) (b2 + n) (Or.inl (by omega)),
        hEb0 (b2 + n) (a2 + n) (Or.inl (by omega)),
        hEt a2 b2, hEt b2 a2, hEsCount, hEsCount, htop a2 b2, htop b2 a2,
        hBcount b2 a2, hBcount a2 b2]
      have h1 := honce (a2, b2)
      have h2 := honce (b2, a2)
      by_cases hy : (meshEdges fs).count (b2, a2) = 0 <;>
        by_cases hx : (meshEdges fs).count (a2, b2) = 0 <;>
        simp only [hy, hx, if_true, if_false, ite_true, ite_false] at hpos ⊢ <;>
        omega

/-- C4 counterexample: for the planar mesh of two corner-touching quads (all
vertices at `z = 0`) and height `1 > 0`, the extruded solid has an edge — the
vertical edge over the shared corner vertex — shared by four faces, so the
extruder output is not manifold for every planar mesh. -/
theorem extrude_corner_touch_not_manifold :
    ((4, 13) ∈ meshEdges (extrude_region (1 : ℚ) cornerMesh).faces) ∧
    udCount (meshEdges (extrude_region (1 : ℚ) cornerMesh).faces) (4, 13) = 4 := by
  decide

/-- C4 (amended): for a planar mesh whose edges are consistently wound (each
directed edge at most once), free of degenerate edges, with indices in range
and every vertex on 0 or 2 boundary edges, the Extruder output is a closed
manifold solid: every edge is shared by exactly two faces, the face count is
`2 * planarFaceCount + boundaryEdgeCount`, the bottom cap is the original
faces with winding reversed, and the top-cap vertices are the planar
vertices translated by `(0,0,H)`. -/
theorem extrude_region_solid {K : Type} [Field K] (H : K) (m : Mesh K)
    (hrange : ∀ e ∈ meshEdges m.faces,
      e.1 < m.verts.length ∧ e.2 < m.verts.length)
    (hsimple : ∀ e ∈ meshEdges m.faces, e.1 ≠ e.2)
    (hnd : (meshEdges m.faces).Nodup)
    (hvert : ∀ x : Nat, x < m.verts.length →
      bdDeg m.faces x = 0 ∨ bdDeg m.faces x = 2) :
    (∀ e ∈ meshEdges (extrude_region H m).faces,
      udCount (meshEdges (extrude_region H m).faces) e = 2) ∧
    (extrude_region H m).faces.length =
      2 * m.faces.length + (boundaryEdges m.faces).length ∧
    (extrude_region H m).faces.take m.faces.length = m.faces.map List.reverse ∧
    (∀ i : Nat, i < m.verts.length →
      (extrude_region H m).verts[m.verts.length + i]? =
        (m.verts[i]?).map (fun v => (v.1, v.2.1, v.2.2 + H))) := by
  refine ⟨?_, ?_, ?_, ?_⟩
  · exact extrude_manifold_core m.verts.length m.faces hrange hsimple hnd hvert
  · show (m.faces.map List.reverse ++
      m.faces.map (List.map (fun i => i + m.verts.length)) ++
      (boundaryEdges m.faces).map (sideQuad m.verts.length)).length = _
    rw [List.length_append, List.length_append, List.length_map, List.length_map,
      List.length_map]
    ring
  · show (m.faces.map List.reverse ++
      m.faces.map (List.map (fun i => i + m.verts.length)) ++
        (boundaryEdges m.faces).map (sideQuad m.verts.length)).take
        m.faces.length = _
    rw [List.append_assoc]
    rw [show m.faces.length = (m.faces.map List.reverse).length from
      (List.length_map _ _).symm]
    exact List.take_left _ _
  · intro i hi
    show (m.verts ++ m.verts.map (fun v => (v.1, v.2.1, v.2.2 + H)))[m.verts.length + i]? = _
    rw [List.getElem?_append_right (by omega)]
    rw [show m.verts.length + i - m.verts.length = i from by omega]
    rw [List.getElem?_map]

/-- Witness for `extrude_region_solid` at a single unit quad with height 2. -/
theorem extrude_region_solid_witness :
    ((∀ e ∈ meshEdges sqMesh.faces,
        e.1 < sqMesh.verts.length ∧ e.2 < sqMesh.verts.length) ∧
     (∀ e ∈ meshEdges sqMesh.faces, e.1 ≠ e.2) ∧
     (meshEdges sqMesh.faces).Nodup ∧
     (∀ x : Nat, x < sqMesh.verts.length →
        bdDeg sqMesh.faces x = 0 ∨ bdDeg sqMesh.faces x = 2)) ∧
    (∀ e ∈ meshEdges (extrude_region (2 : ℚ) sqMesh).faces,
      udCount (meshEdges (extrude_region (2 : ℚ) sqMesh).faces) e = 2) ∧
    (extrude_region (2 : ℚ) sqMesh).faces.length = 2 * 1 + 4 :=
  ⟨⟨by decide, by decide, by decide, by decide⟩,
   (extrude_region_solid 2 sqMesh (by decide) (by decide) (by decide) (by decide)).1,
   by decide⟩

/-- The builder emits no faces for an all-free grid. -/
theorem create_wall_faces_all_free (h w : Nat) (occ : Nat → Nat → Bool)
    (hfree : ∀ r c : Nat, occ r c = false) :
    create_wall_faces h w occ = [] := by
  rw [create_wall_faces_eq]
  apply List.flatMap_eq_nil_iff.mpr
  intro r _
  rw [List.filter_eq_nil_iff.mpr (by
    intro c _
    simp [hfree r c])]
  rfl

/-- C5: an all-free grid of any size flows through the whole pipeline as a
valid value and produces an empty WallModel: zero vertices and zero faces,
with no error. -/
theorem create_wall_all_free {K : Type} [Field K] [DecidableEq K]
    (h w : Nat) (occ : Nat → Nat → Bool) (thickness ox oy θ cs sn H : K)
    (hfree : ∀ r c : Nat, occ r c = false) :
    (create_wall K h w occ thickness ox oy θ cs sn H).verts = [] ∧
    (create_wall K h w occ thickness ox oy θ cs sn H).faces = [] := by
  have hf : (buildMesh K h w occ).faces = [] :=
    create_wall_faces_all_free h w occ hfree
  have h1 : delete_loose (buildMesh K h w occ) = Mesh.mk [] [] := by
    rw [delete_loose, Mesh.mk.injEq]
    constructor
    · rw [hf]
      rw [List.filter_eq_nil_iff.mpr (by
        intro i _
        simp [refd])]
      rfl
    · rw [hf]
      rfl
  rw [create_wall, h1]
  exact ⟨rfl, rfl⟩

/-- Witness for `create_wall_all_free`: a 2 by 3 all-free grid. -/
theorem create_wall_all_free_witness :
    (∀ r c : Nat, (fun _ _ => false : Nat → Nat → Bool) r c = false) ∧
    ((create_wall ℚ 2 3 (fun _ _ => false) 1 0 0 0 1 0 2).verts = [] ∧
     (create_wall ℚ 2 3 (fun _ _ => false) 1 0 0 0 1 0 2).faces = []) :=
  ⟨fun _ _ => rfl,
   create_wall_all_free 2 3 (fun _ _ => false) 1 0 0 0 1 0 2 (fun _ _ => rfl)⟩

/-- C3 counterexample: nothing is rejected.  With the invalid placement
`cell_size = 0` and the invalid `height = -1` on a 1 by 1 occupied grid, the
pipeline runs to completion and produces an ordinary 6-face solid instead of
surfacing any failure value. -/
theorem create_wall_no_validation :
    (create_wall ℚ 1 1 (fun _ _ => true) 0 0 0 0 1 0 (-1)).faces.length = 6 := by
  decide

/-- C3 (amended): the source performs no validation at pipeline entry (or
anywhere): the pipeline is a total function, and the combinatorial output is
entirely independent of `cell_size`, the origin and the height, so invalid
placements and heights are processed exactly like valid ones rather than
being rejected. -/
theorem create_wall_total_no_validation {K : Type} [Field K] [DecidableEq K]
    (h w : Nat) (occ : Nat → Nat → Bool)
    (t1 x1 y1 r1 c1 s1 H1 t2 x2 y2 r2 c2 s2 H2 : K) :
    (create_wall K h w occ t1 x1 y1 r1 c1 s1 H1).faces =
      (create_wall K h w occ t2 x2 y2 r2 c2 s2 H2).faces := by
  have hgen : ∀ t x y r c s H : K,
      (create_wall K h w occ t x y r c s H).faces =
        ((dissolveMesh (delete_loose (buildMesh K h w occ))).faces.map List.reverse ++
          (dissolveMesh (delete_loose (buildMesh K h w occ))).faces.map
            (List.map (fun i => i +
              (dissolveMesh (delete_loose (buildMesh K h w occ))).verts.length)) ++
          (boundaryEdges (dissolveMesh (delete_loose (buildMesh K h w occ))).faces).map
            (sideQuad (dissolveMesh (delete_loose (buildMesh K h w occ))).verts.length)) := by
    intro t x y r c s H
    show ((transformMesh t x y r c s
        (dissolveMesh (delete_loose (buildMesh K h w occ)))).faces.map List.reverse ++ _ ++ _) = _
    rw [show ∀ m : Mesh K, (transformMesh t x y r c s m).faces = m.faces from fun _ => rfl]
    rw [show ∀ m : Mesh K, (transformMesh t x y r c s m).verts.length = m.verts.length from
      fun m => List.length_map _ _]
  rw [hgen, hgen]

/-- C10: binarization marks a pixel occupied iff `(255 - p)/255 > t` when
`negate` is false, and iff `p/255 > t` when `negate` is true; a value exactly
equal to the threshold is classified free in both modes. -/
theorem make_binary_grid_semantics (p : Nat) (t : ℚ) (hp : p ≤ 255) :
    (make_binary_grid p t false = true ↔ (255 - (p : ℚ)) / 255 > t) ∧
    (make_binary_grid p t true = true ↔ (p : ℚ) / 255 > t) ∧
    ((255 - (p : ℚ)) / 255 = t → make_binary_grid p t false = false) ∧
    ((p : ℚ) / 255 = t → make_binary_grid p t true = false) := by
  have hcast : ((255 - p : Nat) : ℚ) = 255 - (p : ℚ) := by
    push_cast [hp]
    ring
  refine ⟨?_, ?_, ?_, ?_⟩
  · simp [make_binary_grid, hcast]
  · simp [make_binary_grid]
  · intro h
    simp [make_binary_grid, hcast, h]
  · intro h
    simp [make_binary_grid, h]

/-- Witness for `make_binary_grid_semantics` at `p = 100`, `t = 1/2`. -/
theorem make_binary_grid_semantics_witness :
    (100 ≤ 255) ∧
    ((make_binary_grid 100 (1/2) false = true ↔ (255 - (100 : ℚ)) / 255 > 1/2) ∧
     (make_binary_grid 100 (1/2) true = true ↔ (100 : ℚ) / 255 > 1/2) ∧
     ((255 - (100 : ℚ)) / 255 = 1/2 → make_binary_grid 100 (1/2) false = false) ∧
     ((100 : ℚ) / 255 = 1/2 → make_binary_grid 100 (1/2) true = false)) :=
  ⟨by decide, make_binary_grid_semantics 100 (1/2) (by decide)⟩

/-- C2: the transform stage composes as scale, then translation, then
rotation about the global origin: `p' = R(θ)·(s·p + t)`.  It differs from
the pose composition `p' = R(θ)·s·p + t`, witnessed at
`s = 1`, `t = (1,0)`, `θ = π/2`, `p = (0,0,0)`. -/
theorem transform_rotates_after_translate :
    (∀ (cell ox oy θ : ℝ) (p : ℝ × ℝ × ℝ),
      transformVert cell ox oy θ (Real.cos θ) (Real.sin θ) p =
        applyRot (Real.cos θ) (Real.sin θ)
          (cell * p.1 + ox, cell * p.2.1 + oy, p.2.2)) ∧
    transformVert 1 1 0 (Real.pi / 2) (Real.cos (Real.pi / 2)) (Real.sin (Real.pi / 2))
        ((0 : ℝ), (0 : ℝ), (0 : ℝ)) ≠
      ((applyRot (Real.cos (Real.pi / 2)) (Real.sin (Real.pi / 2))
          ((1 : ℝ) * 0, (1 : ℝ) * 0, (0 : ℝ))).1 + 1,
       (applyRot (Real.cos (Real.pi / 2)) (Real.sin (Real.pi / 2))
          ((1 : ℝ) * 0, (1 : ℝ) * 0, (0 : ℝ))).2.1 + 0,
       (applyRot (Real.cos (Real.pi / 2)) (Real.sin (Real.pi / 2))
          ((1 : ℝ) * 0, (1 : ℝ) * 0, (0 : ℝ))).2.2) := by
  constructor
  · intro cell ox oy θ p
    by_cases hθ : θ = 0
    · subst hθ
      by_cases ht : ox = 0 ∧ oy = 0
      · obtain ⟨h1, h2⟩ := ht
        subst h1; subst h2
        simp [transformVert, applyRot]
      · simp [transformVert, applyRot, ht]
    · by_cases ht : ox = 0 ∧ oy = 0
      · obtain ⟨h1, h2⟩ := ht
        subst h1; subst h2
        simp [transformVert, applyRot, hθ]
      · simp [transformVert, applyRot, hθ, ht]
  · have hθ : (Real.pi / 2) ≠ 0 := div_ne_zero Real.pi_ne_zero two_ne_zero
    have hne : ¬((1 : ℝ) = 0 ∧ (0 : ℝ) = 0) := by
      intro h
      exact one_ne_zero h.1
    intro h
    have h1 := congrArg Prod.fst h
    simp [transformVert, applyRot, hθ, hne, Real.cos_pi_div_two, Real.sin_pi_div_two] at h1

/-- Witness for `transform_rotates_after_translate` at a concrete vertex. -/
theorem transform_rotates_after_translate_witness :
    transformVert 1 0 0 0 (Real.cos 0) (Real.sin 0) ((2 : ℝ), 3, 0) =
      applyRot (Real.cos 0) (Real.sin 0) ((1 : ℝ) * 2 + 0, (1 : ℝ) * 3 + 0, 0) :=
  transform_rotates_after_translate.1 1 0 0 0 (2, 3, 0)

end MapToSdf

